import Mathlib

/-!
Verification of the branch-and-bound UTXO coin-selection engine
(`selectUtxoBnBOptimized` in `utxo_algorithm.js`).

Amounts, target and fee rate are modelled as integers (`Int`), following the
design note that a fixed-point / integer representation is the intended
numeric domain. The JavaScript stable sort is modelled by a stable insertion
sort with the same comparator (descending effective value); the iterative
explicit stack of the source is modelled by a list of search nodes, popping
and pushing at the head.
-/

namespace UtxoBnB

def BYTES_PER_INPUT : Int := 148

def BYTES_PER_OUTPUT : Int := 34

def BYTES_OVERHEAD : Int := 10

/-- One candidate unit as built by the effective-value filter:
raw `amount`, `effectiveValue = amount - BYTES_PER_INPUT * feeRate`,
and the position `originalIndex` it had in the input list. -/
structure EffUtxo where
  amount : Int
  effectiveValue : Int
  originalIndex : Nat
deriving Repr, DecidableEq, Inhabited

/-- One entry of the explicit search stack: next candidate index to decide,
running sum of effective values, and the units included so far. -/
structure Node where
  idx : Nat
  currentEffectiveSum : Int
  selectedUtxos : List EffUtxo
deriving Repr, DecidableEq, Inhabited

/-- The result object built for an accepted selection. -/
structure SelectionResult where
  selectedUtxos : List Int
  fee : Int
  totalAmount : Int
  excess : Int
deriving Repr, DecidableEq

/-- The map + filter stage: annotate every input amount with its effective
value and original index, and drop units whose effective value is not
strictly positive (dust). -/
def mkEffective (utxos : List Int) (feeRate : Int) : List EffUtxo :=
  (utxos.enum.map (fun p => ⟨p.2, p.2 - BYTES_PER_INPUT * feeRate, p.1⟩)).filter
    (fun u => decide (0 < u.effectiveValue))

/-- Comparator of the sort step: `a` may come before `b` when
`b.effectiveValue ≤ a.effectiveValue` (descending order). -/
def effGE (a b : EffUtxo) : Prop := b.effectiveValue ≤ a.effectiveValue

instance : DecidableRel effGE := fun a b => Int.decLe b.effectiveValue a.effectiveValue

/-- The candidate list: effective-value filter followed by the stable
descending sort (JavaScript array sort is stable; a stable insertion sort
produces the same list). -/
def effectiveUtxosOf (utxos : List Int) (feeRate : Int) : List EffUtxo :=
  List.insertionSort effGE (mkEffective utxos feeRate)

/-- The acceptance floor: `targetAmount + (BYTES_PER_OUTPUT + BYTES_OVERHEAD) * feeRate`. -/
def targetOf (targetAmount feeRate : Int) : Int :=
  targetAmount + (BYTES_PER_OUTPUT + BYTES_OVERHEAD) * feeRate

/-- Cost of creating a change output. -/
def costOfChangeOf (feeRate : Int) : Int :=
  (BYTES_PER_OUTPUT + BYTES_OVERHEAD) * feeRate

/-- The acceptance ceiling: `target + costOfChange`. -/
def upperBoundOf (targetAmount feeRate : Int) : Int :=
  targetOf targetAmount feeRate + costOfChangeOf feeRate

/-- The pruning table: `totalRemaining eff i` is the sum of the effective
values at positions `≥ i` of the candidate list (the suffix-sum array of the
source). -/
def totalRemaining (eff : List EffUtxo) (idx : Nat) : Int :=
  ((eff.drop idx).map EffUtxo.effectiveValue).sum

/-- Weight of one stack node for the termination measure. -/
def nodeWeight (n : Nat) (node : Node) : Nat := 3 ^ (n - node.idx)

/-- Termination measure of the whole stack. -/
def stackMeasure (n : Nat) (stack : List Node) : Nat :=
  (stack.map (nodeWeight n)).sum

/-- The iterative branch-and-bound loop. Pops the head node; accepts when the
running sum is inside `[target, upperBound]`; discards dead ends (index past
the end or sum above the upper bound) and pruned branches (even all remaining
effective value cannot reach the target); otherwise pushes the exclude child
and then the include child, so the include child is popped first. -/
def search (eff : List EffUtxo) (target upperBound : Int) :
    List Node → Option (List EffUtxo)
  | [] => none
  | node :: rest =>
    if target ≤ node.currentEffectiveSum ∧ node.currentEffectiveSum ≤ upperBound then
      some node.selectedUtxos
    else if hDead : eff.length ≤ node.idx ∨ upperBound < node.currentEffectiveSum then
      search eff target upperBound rest
    else if node.currentEffectiveSum + totalRemaining eff node.idx < target then
      search eff target upperBound rest
    else
      search eff target upperBound
        (⟨node.idx + 1,
          node.currentEffectiveSum + (eff.getD node.idx default).effectiveValue,
          node.selectedUtxos ++ [eff.getD node.idx default]⟩ ::
          ⟨node.idx + 1, node.currentEffectiveSum, node.selectedUtxos⟩ :: rest)
termination_by stack => stackMeasure eff.length stack
decreasing_by
  · simp only [stackMeasure, nodeWeight, List.map_cons, List.sum_cons]
    have h3 : 0 < 3 ^ (eff.length - node.idx) := Nat.pow_pos (by omega)
    omega
  · simp only [stackMeasure, nodeWeight, List.map_cons, List.sum_cons]
    have h3 : 0 < 3 ^ (eff.length - node.idx) := Nat.pow_pos (by omega)
    omega
  · simp only [stackMeasure, nodeWeight, List.map_cons, List.sum_cons]
    have hk : eff.length - node.idx = (eff.length - (node.idx + 1)) + 1 := by omega
    have h3 : 0 < 3 ^ (eff.length - (node.idx + 1)) := Nat.pow_pos (by omega)
    rw [hk, pow_succ]
    omega

/-- The coin-selection engine: effective-value filter and sort, bound
computation, branch-and-bound search from the empty selection, and the
result builder for an accepted selection. -/
def selectUtxoBnBOptimized (utxos : List Int) (targetAmount feeRate : Int) :
    Option SelectionResult :=
  match search (effectiveUtxosOf utxos feeRate) (targetOf targetAmount feeRate)
      (upperBoundOf targetAmount feeRate) [⟨0, 0, []⟩] with
  | none => none
  | some sel =>
    let bestSelection := sel.map EffUtxo.amount
    let inputCount : Int := bestSelection.length
    let txSize := inputCount * BYTES_PER_INPUT + BYTES_PER_OUTPUT + BYTES_OVERHEAD
    let fee := txSize * feeRate
    let totalSelectedAmount := bestSelection.sum
    some { selectedUtxos := bestSelection
           fee := fee
           totalAmount := totalSelectedAmount
           excess := totalSelectedAmount - targetAmount - fee }

/-- Invariant of every node that ever sits on the search stack: its selection
is a sublist of the first `idx` candidates, and its running sum is the sum of
the effective values of its selection. -/
def GoodNode (eff : List EffUtxo) (node : Node) : Prop :=
  node.selectedUtxos.Sublist (eff.take node.idx) ∧
  node.currentEffectiveSum = (node.selectedUtxos.map EffUtxo.effectiveValue).sum

/-- Restatement of the pruning table at index 0: the sum of all candidate
effective values, computed on the unsorted filtered list. -/
def totalEffective (utxos : List Int) (feeRate : Int) : Int :=
  ((mkEffective utxos feeRate).map EffUtxo.effectiveValue).sum

theorem stackMeasure_cons (n : Nat) (node : Node) (rest : List Node) :
    stackMeasure n (node :: rest) = 3 ^ (n - node.idx) + stackMeasure n rest := by
  simp [stackMeasure, nodeWeight]

theorem stackMeasure_lt_cons (n : Nat) (node : Node) (rest : List Node) :
    stackMeasure n rest < stackMeasure n (node :: rest) := by
  rw [stackMeasure_cons]
  have h3 : 0 < 3 ^ (n - node.idx) := Nat.pow_pos (by omega)
  omega

theorem stackMeasure_branch_lt (n idx : Nat) (s1 s2 s3 : Int)
    (l1 l2 l3 : List EffUtxo) (rest : List Node) (h : idx < n) :
    stackMeasure n (⟨idx + 1, s1, l1⟩ :: ⟨idx + 1, s2, l2⟩ :: rest) <
      stackMeasure n (⟨idx, s3, l3⟩ :: rest) := by
  rw [stackMeasure_cons, stackMeasure_cons, stackMeasure_cons]
  have hk : n - idx = (n - (idx + 1)) + 1 := by omega
  have h3 : 0 < 3 ^ (n - (idx + 1)) := Nat.pow_pos (by omega)
  rw [hk, pow_succ]
  simp only [Node.idx]
  omega

theorem search_nil (eff : List EffUtxo) (t u : Int) : search eff t u [] = none := by
  simp [search]

theorem search_cons (eff : List EffUtxo) (t u : Int) (node : Node) (rest : List Node) :
    search eff t u (node :: rest) =
      if t ≤ node.currentEffectiveSum ∧ node.currentEffectiveSum ≤ u then
        some node.selectedUtxos
      else if eff.length ≤ node.idx ∨ u < node.currentEffectiveSum then
        search eff t u rest
      else if node.currentEffectiveSum + totalRemaining eff node.idx < t then
        search eff t u rest
      else
        search eff t u
          (⟨node.idx + 1,
            node.currentEffectiveSum + (eff.getD node.idx default).effectiveValue,
            node.selectedUtxos ++ [eff.getD node.idx default]⟩ ::
            ⟨node.idx + 1, node.currentEffectiveSum, node.selectedUtxos⟩ :: rest) := by
  rw [search, dite_eq_ite]

theorem search_sound_aux (eff : List EffUtxo) (t u : Int) :
    ∀ N : Nat, ∀ stack : List Node, stackMeasure eff.length stack ≤ N →
      (∀ nd ∈ stack, GoodNode eff nd) →
      ∀ sel : List EffUtxo, search eff t u stack = some sel →
      sel.Sublist eff ∧ t ≤ (sel.map EffUtxo.effectiveValue).sum ∧
        (sel.map EffUtxo.effectiveValue).sum ≤ u := by
  intro N
  induction N with
  | zero =>
    intro stack hm hg sel hs
    cases stack with
    | nil => rw [search_nil] at hs; cases hs
    | cons nd rest =>
      exfalso
      have := stackMeasure_lt_cons eff.length nd rest
      omega
  | succ N ih =>
    intro stack hm hg sel hs
    cases stack with
    | nil => rw [search_nil] at hs; cases hs
    | cons nd rest =>
      have hgood := hg nd (List.mem_cons_self nd rest)
      have hgrest : ∀ x ∈ rest, GoodNode eff x :=
        fun x hx => hg x (List.mem_cons_of_mem nd hx)
      have hmrest : stackMeasure eff.length rest ≤ N := by
        have := stackMeasure_lt_cons eff.length nd rest; omega
      rw [search_cons] at hs
      by_cases hc1 : t ≤ nd.currentEffectiveSum ∧ nd.currentEffectiveSum ≤ u
      · rw [if_pos hc1] at hs
        obtain rfl : nd.selectedUtxos = sel := Option.some.inj hs
        refine ⟨hgood.1.trans (List.take_sublist _ _), ?_, ?_⟩
        · rw [← hgood.2]; exact hc1.1
        · rw [← hgood.2]; exact hc1.2
      · rw [if_neg hc1] at hs
        by_cases hc2 : eff.length ≤ nd.idx ∨ u < nd.currentEffectiveSum
        · rw [if_pos hc2] at hs
          exact ih rest hmrest hgrest sel hs
        · rw [if_neg hc2] at hs
          by_cases hc3 : nd.currentEffectiveSum + totalRemaining eff nd.idx < t
          · rw [if_pos hc3] at hs
            exact ih rest hmrest hgrest sel hs
          · rw [if_neg hc3] at hs
            have hidx : nd.idx < eff.length := by
              rcases Nat.lt_or_ge nd.idx eff.length with h | h
              · exact h
              · exact absurd (Or.inl h) hc2
            have heget : eff.getD nd.idx default = eff[nd.idx] :=
              List.getD_eq_getElem eff default hidx
            have htake : eff.take (nd.idx + 1) = eff.take nd.idx ++ [eff.getD nd.idx default] := by
              rw [List.take_succ, List.getElem?_eq_getElem hidx, heget]
              simp
            have hginc : GoodNode eff
                ⟨nd.idx + 1,
                  nd.currentEffectiveSum + (eff.getD nd.idx default).effectiveValue,
                  nd.selectedUtxos ++ [eff.getD nd.idx default]⟩ := by
              constructor
              · show (nd.selectedUtxos ++ [eff.getD nd.idx default]).Sublist
                  (eff.take (nd.idx + 1))
                rw [htake]
                exact hgood.1.append (List.Sublist.refl _)
              · show nd.currentEffectiveSum + (eff.getD nd.idx default).effectiveValue =
                  ((nd.selectedUtxos ++ [eff.getD nd.idx default]).map EffUtxo.effectiveValue).sum
                rw [List.map_append, List.sum_append, ← hgood.2]
                simp
            have hgexc : GoodNode eff ⟨nd.idx + 1, nd.currentEffectiveSum, nd.selectedUtxos⟩ := by
              constructor
              · show nd.selectedUtxos.Sublist (eff.take (nd.idx + 1))
                rw [htake]
                exact hgood.1.trans (List.sublist_append_left _ _)
              · exact hgood.2
            have hgnew : ∀ x ∈
                (⟨nd.idx + 1,
                  nd.currentEffectiveSum + (eff.getD nd.idx default).effectiveValue,
                  nd.selectedUtxos ++ [eff.getD nd.idx default]⟩ ::
                  ⟨nd.idx + 1, nd.currentEffectiveSum, nd.selectedUtxos⟩ :: rest),
                GoodNode eff x := by
              intro x hx
              rcases List.mem_cons.mp hx with rfl | hx
              · exact hginc
              rcases List.mem_cons.mp hx with rfl | hx
              · exact hgexc
              · exact hgrest x hx
            have hmnew : stackMeasure eff.length
                (⟨nd.idx + 1,
                  nd.currentEffectiveSum + (eff.getD nd.idx default).effectiveValue,
                  nd.selectedUtxos ++ [eff.getD nd.idx default]⟩ ::
                  ⟨nd.idx + 1, nd.currentEffectiveSum, nd.selectedUtxos⟩ :: rest) ≤ N := by
              have hb := stackMeasure_branch_lt eff.length nd.idx
                (nd.currentEffectiveSum + (eff.getD nd.idx default).effectiveValue)
                nd.currentEffectiveSum nd.currentEffectiveSum
                (nd.selectedUtxos ++ [eff.getD nd.idx default]) nd.selectedUtxos
                nd.selectedUtxos rest hidx
              have hms : stackMeasure eff.length
                  ((⟨nd.idx, nd.currentEffectiveSum, nd.selectedUtxos⟩ : Node) :: rest) =
                  stackMeasure eff.length (nd :: rest) := rfl
              omega
            exact ih _ hmnew hgnew sel hs

theorem search_sound (eff : List EffUtxo) (t u : Int) (sel : List EffUtxo)
    (h : search eff t u [⟨0, 0, []⟩] = some sel) :
    sel.Sublist eff ∧ t ≤ (sel.map EffUtxo.effectiveValue).sum ∧
      (sel.map EffUtxo.effectiveValue).sum ≤ u := by
  refine search_sound_aux eff t u (stackMeasure eff.length [⟨0, 0, []⟩]) _ le_rfl ?_ sel h
  intro nd hnd
  have : nd = (⟨0, 0, []⟩ : Node) := by simpa using hnd
  subst this
  exact ⟨by simp, by simp⟩

theorem mem_mkEffective {utxos : List Int} {r : Int} {x : EffUtxo}
    (hx : x ∈ mkEffective utxos r) :
    x.effectiveValue = x.amount - BYTES_PER_INPUT * r ∧ 0 < x.effectiveValue ∧
      utxos[x.originalIndex]? = some x.amount := by
  unfold mkEffective at hx
  have hmem := List.mem_of_mem_filter hx
  have hfil := List.of_mem_filter hx
  rcases List.mem_map.mp hmem with ⟨p, hp, rfl⟩
  refine ⟨rfl, ?_, ?_⟩
  · simpa using hfil
  · exact List.mem_enum_iff_getElem?.mp hp

theorem mem_effectiveUtxosOf {utxos : List Int} {r : Int} {x : EffUtxo}
    (hx : x ∈ effectiveUtxosOf utxos r) :
    x.effectiveValue = x.amount - BYTES_PER_INPUT * r ∧ 0 < x.effectiveValue ∧
      utxos[x.originalIndex]? = some x.amount :=
  mem_mkEffective ((List.perm_insertionSort effGE (mkEffective utxos r)).mem_iff.mp hx)

theorem sum_map_effectiveValue (r : Int) :
    ∀ sel : List EffUtxo,
      (∀ x ∈ sel, x.effectiveValue = x.amount - BYTES_PER_INPUT * r) →
      (sel.map EffUtxo.effectiveValue).sum =
        (sel.map EffUtxo.amount).sum - (sel.length : Int) * (BYTES_PER_INPUT * r)
  | [], _ => by simp
  | x :: xs, h => by
    have hx := h x (List.mem_cons_self x xs)
    have ih := sum_map_effectiveValue r xs (fun y hy => h y (List.mem_cons_of_mem x hy))
    simp only [List.map_cons, List.sum_cons, List.length_cons, ih, hx]
    push_cast
    ring

theorem select_spec (utxos : List Int) (T r : Int) (res : SelectionResult)
    (h : selectUtxoBnBOptimized utxos T r = some res) :
    ∃ sel : List EffUtxo,
      sel.Sublist (effectiveUtxosOf utxos r) ∧
      res.selectedUtxos = sel.map EffUtxo.amount ∧
      res.fee = ((sel.length : Int) * BYTES_PER_INPUT + BYTES_PER_OUTPUT + BYTES_OVERHEAD) * r ∧
      res.totalAmount = (sel.map EffUtxo.amount).sum ∧
      res.excess = res.totalAmount - T - res.fee ∧
      targetOf T r ≤ (sel.map EffUtxo.effectiveValue).sum ∧
      (sel.map EffUtxo.effectiveValue).sum ≤ upperBoundOf T r := by
  rw [selectUtxoBnBOptimized] at h
  split at h
  · cases h
  · rename_i sel heq
    obtain ⟨hsub, hlo, hhi⟩ := search_sound _ _ _ sel heq
    obtain rfl : _ = res := Option.some.inj h
    refine ⟨sel, hsub, rfl, ?_, rfl, rfl, hlo, hhi⟩
    simp [List.length_map]

theorem mkEffective_sublist (utxos : List Int) (r : Int) :
    (mkEffective utxos r).Sublist
      (utxos.enum.map (fun p => (⟨p.2, p.2 - BYTES_PER_INPUT * r, p.1⟩ : EffUtxo))) := by
  unfold mkEffective
  exact List.filter_sublist _

theorem nodup_originalIndex (utxos : List Int) (r : Int) :
    ((effectiveUtxosOf utxos r).map EffUtxo.originalIndex).Nodup := by
  have h1 : ((mkEffective utxos r).map EffUtxo.originalIndex).Nodup := by
    have hsub := (mkEffective_sublist utxos r).map EffUtxo.originalIndex
    have heq : ((utxos.enum.map
        (fun p => (⟨p.2, p.2 - BYTES_PER_INPUT * r, p.1⟩ : EffUtxo))).map
          EffUtxo.originalIndex) = utxos.enum.map Prod.fst := by
      rw [List.map_map]; rfl
    rw [heq] at hsub
    exact hsub.nodup (List.nodup_enum_map_fst utxos)
  exact ((List.perm_insertionSort effGE
    (mkEffective utxos r)).map EffUtxo.originalIndex).symm.nodup h1

theorem selected_subperm {utxos : List Int} {r : Int} {sel : List EffUtxo}
    (hsub : sel.Sublist (effectiveUtxosOf utxos r)) :
    (sel.map EffUtxo.amount).Subperm utxos := by
  have s1 := (hsub.map EffUtxo.amount).subperm
  have s2 := ((List.perm_insertionSort effGE
    (mkEffective utxos r)).map EffUtxo.amount).subperm
  have s3 := ((mkEffective_sublist utxos r).map EffUtxo.amount).subperm
  have s4 : ((utxos.enum.map
      (fun p => (⟨p.2, p.2 - BYTES_PER_INPUT * r, p.1⟩ : EffUtxo))).map
        EffUtxo.amount) = utxos := by
    rw [List.map_map]
    have hcomp : (EffUtxo.amount ∘
        (fun p : Nat × Int => (⟨p.2, p.2 - BYTES_PER_INPUT * r, p.1⟩ : EffUtxo))) =
        Prod.snd := by
      funext p; rfl
    rw [hcomp, List.enum_map_snd]
  rw [s4] at s3
  exact s1.trans (s2.trans s3)

theorem sum_map_filter {α : Type} (f : α → Int) (q : α → Bool) :
    ∀ L : List α, ((L.filter q).map f).sum = (L.map (fun x => if q x then f x else 0)).sum
  | [] => by simp
  | x :: xs => by
    by_cases hx : q x = true
    · simp [List.filter_cons, hx, sum_map_filter f q xs]
    · simp [List.filter_cons, hx, sum_map_filter f q xs]

theorem totalEffective_eq_sum (utxos : List Int) (r : Int) :
    totalEffective utxos r =
      (utxos.map
        (fun a => if BYTES_PER_INPUT * r < a then a - BYTES_PER_INPUT * r else 0)).sum := by
  unfold totalEffective mkEffective
  rw [sum_map_filter, List.map_map]
  have h1 : ((fun x : EffUtxo =>
      if decide (0 < x.effectiveValue) then x.effectiveValue else 0) ∘
      (fun p : Nat × Int => (⟨p.2, p.2 - BYTES_PER_INPUT * r, p.1⟩ : EffUtxo))) =
      (fun a : Int => if BYTES_PER_INPUT * r < a then a - BYTES_PER_INPUT * r else 0) ∘
        Prod.snd := by
    funext p
    simp only [Function.comp_apply, decide_eq_true_eq]
    by_cases h : BYTES_PER_INPUT * r < p.2
    · rw [if_pos h, if_pos (by omega : (0 : Int) < p.2 - BYTES_PER_INPUT * r)]
    · rw [if_neg h, if_neg (by omega : ¬ (0 : Int) < p.2 - BYTES_PER_INPUT * r)]
  rw [h1, ← List.map_map, List.enum_map_snd]

theorem totalEffective_anti (utxos : List Int) {r r' : Int} (h : r ≤ r') :
    totalEffective utxos r' ≤ totalEffective utxos r := by
  rw [totalEffective_eq_sum, totalEffective_eq_sum]
  apply List.sum_le_sum
  intro a _
  have hc : BYTES_PER_INPUT * r ≤ BYTES_PER_INPUT * r' := by
    apply mul_le_mul_of_nonneg_left h
    norm_num [BYTES_PER_INPUT]
  by_cases h1 : BYTES_PER_INPUT * r' < a <;> by_cases h2 : BYTES_PER_INPUT * r < a
  · rw [if_pos h1, if_pos h2]; omega
  · rw [if_pos h1, if_neg h2]; omega
  · rw [if_neg h1, if_pos h2]; omega
  · rw [if_neg h1, if_neg h2]

theorem search_none_aux (eff : List EffUtxo) (t u : Int)
    (hnn : ∀ x ∈ eff, 0 ≤ x.effectiveValue)
    (htot : (eff.map EffUtxo.effectiveValue).sum < t) :
    ∀ N : Nat, ∀ stack : List Node, stackMeasure eff.length stack ≤ N →
      (∀ nd ∈ stack, GoodNode eff nd) →
      search eff t u stack = none := by
  intro N
  induction N with
  | zero =>
    intro stack hm hg
    cases stack with
    | nil => exact search_nil _ _ _
    | cons nd rest =>
      exfalso
      have := stackMeasure_lt_cons eff.length nd rest
      omega
  | succ N ih =>
    intro stack hm hg
    cases stack with
    | nil => exact search_nil _ _ _
    | cons nd rest =>
      have hgood := hg nd (List.mem_cons_self nd rest)
      have hgrest : ∀ x ∈ rest, GoodNode eff x :=
        fun x hx => hg x (List.mem_cons_of_mem nd hx)
      have hmrest : stackMeasure eff.length rest ≤ N := by
        have := stackMeasure_lt_cons eff.length nd rest; omega
      rw [search_cons]
      by_cases hc1 : t ≤ nd.currentEffectiveSum ∧ nd.currentEffectiveSum ≤ u
      · exfalso
        have hsum : nd.currentEffectiveSum ≤ (eff.map EffUtxo.effectiveValue).sum := by
          rw [hgood.2]
          apply List.Sublist.sum_le_sum
            ((hgood.1.trans (List.take_sublist _ _)).map EffUtxo.effectiveValue)
          intro a ha
          rcases List.mem_map.mp ha with ⟨x, hx, rfl⟩
          exact hnn x hx
        linarith [hc1.1]
      · rw [if_neg hc1]
        by_cases hc2 : eff.length ≤ nd.idx ∨ u < nd.currentEffectiveSum
        · rw [if_pos hc2]
          exact ih rest hmrest hgrest
        · rw [if_neg hc2]
          by_cases hc3 : nd.currentEffectiveSum + totalRemaining eff nd.idx < t
          · rw [if_pos hc3]
            exact ih rest hmrest hgrest
          · rw [if_neg hc3]
            have hidx : nd.idx < eff.length := by
              rcases Nat.lt_or_ge nd.idx eff.length with h | h
              · exact h
              · exact absurd (Or.inl h) hc2
            have heget : eff.getD nd.idx default = eff[nd.idx] :=
              List.getD_eq_getElem eff default hidx
            have htake : eff.take (nd.idx + 1) = eff.take nd.idx ++ [eff.getD nd.idx default] := by
              rw [List.take_succ, List.getElem?_eq_getElem hidx, heget]
              simp
            have hginc : GoodNode eff
                ⟨nd.idx + 1,
                  nd.currentEffectiveSum + (eff.getD nd.idx default).effectiveValue,
                  nd.selectedUtxos ++ [eff.getD nd.idx default]⟩ := by
              constructor
              · show (nd.selectedUtxos ++ [eff.getD nd.idx default]).Sublist
                  (eff.take (nd.idx + 1))
                rw [htake]
                exact hgood.1.append (List.Sublist.refl _)
              · show nd.currentEffectiveSum + (eff.getD nd.idx default).effectiveValue =
                  ((nd.selectedUtxos ++ [eff.getD nd.idx default]).map EffUtxo.effectiveValue).sum
                rw [List.map_append, List.sum_append, ← hgood.2]
                simp
            have hgexc : GoodNode eff ⟨nd.idx + 1, nd.currentEffectiveSum, nd.selectedUtxos⟩ := by
              constructor
              · show nd.selectedUtxos.Sublist (eff.take (nd.idx + 1))
                rw [htake]
                exact hgood.1.trans (List.sublist_append_left _ _)
              · exact hgood.2
            have hgnew : ∀ x ∈
                (⟨nd.idx + 1,
                  nd.currentEffectiveSum + (eff.getD nd.idx default).effectiveValue,
                  nd.selectedUtxos ++ [eff.getD nd.idx default]⟩ ::
                  ⟨nd.idx + 1, nd.currentEffectiveSum, nd.selectedUtxos⟩ :: rest),
                GoodNode eff x := by
              intro x hx
              rcases List.mem_cons.mp hx with rfl | hx
              · exact hginc
              rcases List.mem_cons.mp hx with rfl | hx
              · exact hgexc
              · exact hgrest x hx
            have hmnew : stackMeasure eff.length
                (⟨nd.idx + 1,
                  nd.currentEffectiveSum + (eff.getD nd.idx default).effectiveValue,
                  nd.selectedUtxos ++ [eff.getD nd.idx default]⟩ ::
                  ⟨nd.idx + 1, nd.currentEffectiveSum, nd.selectedUtxos⟩ :: rest) ≤ N := by
              have hb := stackMeasure_branch_lt eff.length nd.idx
                (nd.currentEffectiveSum + (eff.getD nd.idx default).effectiveValue)
                nd.currentEffectiveSum nd.currentEffectiveSum
                (nd.selectedUtxos ++ [eff.getD nd.idx default]) nd.selectedUtxos
                nd.selectedUtxos rest hidx
              have hms : stackMeasure eff.length
                  ((⟨nd.idx, nd.currentEffectiveSum, nd.selectedUtxos⟩ : Node) :: rest) =
                  stackMeasure eff.length (nd :: rest) := rfl
              omega
            exact ih _ hmnew hgnew

theorem select_none_of_total_lt (utxos : List Int) (T r : Int)
    (h : totalEffective utxos r < targetOf T r) :
    selectUtxoBnBOptimized utxos T r = none := by
  have hs : search (effectiveUtxosOf utxos r) (targetOf T r) (upperBoundOf T r)
      [⟨0, 0, []⟩] = none := by
    apply search_none_aux
    · intro x hx
      exact (mem_effectiveUtxosOf hx).2.1.le
    · have hperm := (List.perm_insertionSort effGE
        (mkEffective utxos r)).map EffUtxo.effectiveValue
      unfold effectiveUtxosOf
      rw [hperm.sum_eq]
      exact h
    · exact le_rfl
    · intro nd hnd
      have : nd = (⟨0, 0, []⟩ : Node) := by simpa using hnd
      subst this
      exact ⟨by simp, by simp⟩
  rw [selectUtxoBnBOptimized, hs]

theorem select_excess_spec (utxos : List Int) (T r : Int) (res : SelectionResult)
    (h : selectUtxoBnBOptimized utxos T r = some res) :
    ∃ sel : List EffUtxo,
      res.excess = (sel.map EffUtxo.effectiveValue).sum - targetOf T r ∧
      targetOf T r ≤ (sel.map EffUtxo.effectiveValue).sum ∧
      (sel.map EffUtxo.effectiveValue).sum ≤ upperBoundOf T r := by
  obtain ⟨sel, hsub, hsel, hfee, htot, hexc, hlo, hhi⟩ := select_spec utxos T r res h
  refine ⟨sel, ?_, hlo, hhi⟩
  have hse := sum_map_effectiveValue r sel
    (fun x hx => (mem_effectiveUtxosOf (hsub.subset hx)).1)
  rw [hexc, htot, hfee, hse]
  unfold targetOf BYTES_PER_INPUT BYTES_PER_OUTPUT BYTES_OVERHEAD
  ring

/-- Sample accepted run used by the witnesses: the single unit 50192 at fee
rate 1 has effective value 50044, exactly the bottom of the window
[50044, 50088] for target amount 50000. -/
theorem select_example :
    selectUtxoBnBOptimized [50192] 50000 1 = some ⟨[50192], 192, 50192, 0⟩ := by
  have heff : effectiveUtxosOf [50192] 1 = [⟨50192, 50044, 0⟩] := by rfl
  have ht : targetOf 50000 1 = 50044 := by rfl
  have hu : upperBoundOf 50000 1 = 50088 := by rfl
  rw [selectUtxoBnBOptimized, heff, ht, hu]
  rw [search_cons]; norm_num [totalRemaining]
  rw [search_cons]; norm_num [BYTES_PER_INPUT, BYTES_PER_OUTPUT, BYTES_OVERHEAD]

/-- Claim C1: whenever the engine accepts a result, the sum of the effective
values (amount − 148·feeRate) of the selected units lies in the inclusive
window [target, upperBound], with target = targetAmount + (34+10)·feeRate and
upperBound = target + (34+10)·feeRate. -/
theorem claim1_accepted_in_window (utxos : List Int) (targetAmount feeRate : Int)
    (res : SelectionResult) (hT : 0 < targetAmount) (hr : 0 ≤ feeRate)
    (h : selectUtxoBnBOptimized utxos targetAmount feeRate = some res) :
    targetOf targetAmount feeRate ≤
        (res.selectedUtxos.map (fun a => a - BYTES_PER_INPUT * feeRate)).sum ∧
      (res.selectedUtxos.map (fun a => a - BYTES_PER_INPUT * feeRate)).sum ≤
        upperBoundOf targetAmount feeRate := by
  obtain ⟨sel, hsub, hsel, hfee, htot, hexc, hlo, hhi⟩ :=
    select_spec utxos targetAmount feeRate res h
  have hmap : res.selectedUtxos.map (fun a => a - BYTES_PER_INPUT * feeRate) =
      sel.map EffUtxo.effectiveValue := by
    rw [hsel, List.map_map]
    apply List.map_congr_left
    intro x hx
    have hm := (mem_effectiveUtxosOf (hsub.subset hx)).1
    simp only [Function.comp_apply]
    omega
  rw [hmap]
  exact ⟨hlo, hhi⟩

/-- Witness for C1 at the sample accepted run. -/
theorem claim1_witness :
    targetOf 50000 1 ≤
        ((⟨[50192], 192, 50192, 0⟩ : SelectionResult).selectedUtxos.map
          (fun a => a - BYTES_PER_INPUT * 1)).sum ∧
      ((⟨[50192], 192, 50192, 0⟩ : SelectionResult).selectedUtxos.map
          (fun a => a - BYTES_PER_INPUT * 1)).sum ≤ upperBoundOf 50000 1 :=
  claim1_accepted_in_window [50192] 50000 1 ⟨[50192], 192, 50192, 0⟩
    (by norm_num) (by norm_num) select_example

/-- Claim C2: whenever the engine returns a result, the returned excess
(totalAmount − targetAmount − fee) is non-negative. -/
theorem claim2_excess_nonneg (utxos : List Int) (targetAmount feeRate : Int)
    (res : SelectionResult) (hT : 0 < targetAmount) (hr : 0 ≤ feeRate)
    (h : selectUtxoBnBOptimized utxos targetAmount feeRate = some res) :
    0 ≤ res.excess := by
  obtain ⟨sel, hexc, hlo, hhi⟩ := select_excess_spec utxos targetAmount feeRate res h
  rw [hexc]
  linarith

/-- Witness for C2 at the sample accepted run. -/
theorem claim2_witness : 0 ≤ (⟨[50192], 192, 50192, 0⟩ : SelectionResult).excess :=
  claim2_excess_nonneg [50192] 50000 1 ⟨[50192], 192, 50192, 0⟩
    (by norm_num) (by norm_num) select_example

/-- Counterexample to C3 as stated: for units [30000, 25000], target 50000,
fee rate 10, the spec example predicts an accepted result, but the summed
effective value 52040 exceeds the upper bound 50880, so the engine returns
none. -/
theorem claim3_counterexample :
    selectUtxoBnBOptimized [30000, 25000] 50000 10 = none := by
  have heff : effectiveUtxosOf [30000, 25000] 10 =
      [⟨30000, 28520, 0⟩, ⟨25000, 23520, 1⟩] := by rfl
  have ht : targetOf 50000 10 = 50440 := by rfl
  have hu : upperBoundOf 50000 10 = 50880 := by rfl
  rw [selectUtxoBnBOptimized, heff, ht, hu]
  rw [search_cons]; norm_num [totalRemaining]
  rw [search_cons]; norm_num [totalRemaining]
  rw [search_cons]; norm_num [totalRemaining]
  rw [search_cons]; norm_num [totalRemaining]
  rw [search_cons]; norm_num [totalRemaining]
  rw [search_nil]

/-- Claim C3 (amended): for every accepted result with n selected units the
fee equals (n·148 + 34 + 10)·feeRate exactly; the example input of the claim
([30000, 25000], target 50000, fee rate 10) is however not accepted. -/
theorem claim3_amended_fee_formula (utxos : List Int) (targetAmount feeRate : Int)
    (res : SelectionResult)
    (h : selectUtxoBnBOptimized utxos targetAmount feeRate = some res) :
    res.fee = ((res.selectedUtxos.length : Int) * BYTES_PER_INPUT +
      BYTES_PER_OUTPUT + BYTES_OVERHEAD) * feeRate := by
  obtain ⟨sel, hsub, hsel, hfee, htot, hexc, hlo, hhi⟩ :=
    select_spec utxos targetAmount feeRate res h
  rw [hfee, hsel, List.length_map]

/-- Witness for the amended C3 at the sample accepted run. -/
theorem claim3_witness :
    (⟨[50192], 192, 50192, 0⟩ : SelectionResult).fee =
      (((⟨[50192], 192, 50192, 0⟩ : SelectionResult).selectedUtxos.length : Int) *
        BYTES_PER_INPUT + BYTES_PER_OUTPUT + BYTES_OVERHEAD) * 1 :=
  claim3_amended_fee_formula [50192] 50000 1 ⟨[50192], 192, 50192, 0⟩ select_example

/-- Claim C4: no accepted result ever includes a unit whose amount is at most
148·feeRate; every selected amount is strictly above the input cost. -/
theorem claim4_no_dust (utxos : List Int) (targetAmount feeRate : Int)
    (res : SelectionResult) (hT : 0 < targetAmount) (hr : 0 ≤ feeRate)
    (h : selectUtxoBnBOptimized utxos targetAmount feeRate = some res) :
    ∀ a ∈ res.selectedUtxos, BYTES_PER_INPUT * feeRate < a := by
  obtain ⟨sel, hsub, hsel, hfee, htot, hexc, hlo, hhi⟩ :=
    select_spec utxos targetAmount feeRate res h
  intro a ha
  rw [hsel] at ha
  rcases List.mem_map.mp ha with ⟨x, hx, rfl⟩
  have hm := mem_effectiveUtxosOf (hsub.subset hx)
  linarith [hm.1, hm.2.1]

/-- Witness for C4 at the sample accepted run. -/
theorem claim4_witness : BYTES_PER_INPUT * 1 < 50192 :=
  claim4_no_dust [50192] 50000 1 ⟨[50192], 192, 50192, 0⟩
    (by norm_num) (by norm_num) select_example 50192 (by norm_num)

/-- Counterexample to C5 as stated: with the single unit 500 and target 100
there is no solution at fee rate 1 (the unit overshoots the window), yet at
the strictly larger fee rate 2 the window moves up and the unit is accepted. -/
theorem claim5_counterexample :
    selectUtxoBnBOptimized [500] 100 1 = none ∧
      selectUtxoBnBOptimized [500] 100 2 = some ⟨[500], 384, 500, 16⟩ := by
  constructor
  · have heff : effectiveUtxosOf [500] 1 = [⟨500, 352, 0⟩] := by rfl
    have ht : targetOf 100 1 = 144 := by rfl
    have hu : upperBoundOf 100 1 = 188 := by rfl
    rw [selectUtxoBnBOptimized, heff, ht, hu]
    rw [search_cons]; norm_num [totalRemaining]
    rw [search_cons]; norm_num [totalRemaining]
    rw [search_cons]; norm_num [totalRemaining]
    rw [search_nil]
  · have heff : effectiveUtxosOf [500] 2 = [⟨500, 204, 0⟩] := by rfl
    have ht : targetOf 100 2 = 188 := by rfl
    have hu : upperBoundOf 100 2 = 276 := by rfl
    rw [selectUtxoBnBOptimized, heff, ht, hu]
    rw [search_cons]; norm_num [totalRemaining]
    rw [search_cons]; norm_num [BYTES_PER_INPUT, BYTES_PER_OUTPUT, BYTES_OVERHEAD]

/-- Claim C5 (amended): raising the fee rate preserves infeasibility when the
no-solution outcome is due to insufficient total effective value (the total
effective value of all candidates is below the target); in that case the
outcome is none at the given rate and at every strictly larger rate. -/
theorem claim5_amended_monotone (utxos : List Int) (targetAmount feeRate feeRate' : Int)
    (hT : 0 < targetAmount) (hr : 0 ≤ feeRate) (hlt : feeRate < feeRate')
    (hins : totalEffective utxos feeRate < targetOf targetAmount feeRate) :
    selectUtxoBnBOptimized utxos targetAmount feeRate = none ∧
      selectUtxoBnBOptimized utxos targetAmount feeRate' = none := by
  refine ⟨select_none_of_total_lt utxos targetAmount feeRate hins,
    select_none_of_total_lt utxos targetAmount feeRate' ?_⟩
  have h1 := totalEffective_anti utxos hlt.le
  have h2 : targetOf targetAmount feeRate ≤ targetOf targetAmount feeRate' := by
    unfold targetOf
    have hmul : (BYTES_PER_OUTPUT + BYTES_OVERHEAD) * feeRate ≤
        (BYTES_PER_OUTPUT + BYTES_OVERHEAD) * feeRate' := by
      apply mul_le_mul_of_nonneg_left hlt.le
      norm_num [BYTES_PER_OUTPUT, BYTES_OVERHEAD]
    linarith
  linarith

/-- Witness for the amended C5 at a concrete insufficient input. -/
theorem claim5_witness :
    selectUtxoBnBOptimized [100] 1000 1 = none ∧
      selectUtxoBnBOptimized [100] 1000 2 = none :=
  claim5_amended_monotone [100] 1000 1 2 (by norm_num) (by norm_num) (by norm_num)
    (by decide)

/-- Counterexample to C6 as stated: targetAmount = 0 is not rejected before
the search; the engine proceeds and (at fee rate 0) immediately accepts the
empty selection, returning an ordinary result rather than a distinct
InvalidInput outcome. -/
theorem claim6_counterexample :
    selectUtxoBnBOptimized [100] 0 0 = some ⟨[], 0, 0, 0⟩ := by
  rw [selectUtxoBnBOptimized, search_cons]
  norm_num [targetOf, upperBoundOf, costOfChangeOf, BYTES_PER_INPUT,
    BYTES_PER_OUTPUT, BYTES_OVERHEAD]

/-- Claim C6 (amended): the engine performs no input validation and has no
InvalidInput outcome; a call with targetAmount = 0 (shown at fee rate 0, for
every unit list) runs the search and returns the accepted empty selection
with fee 0, totalAmount 0 and excess 0. -/
theorem claim6_amended_no_validation (utxos : List Int) :
    selectUtxoBnBOptimized utxos 0 0 = some ⟨[], 0, 0, 0⟩ := by
  rw [selectUtxoBnBOptimized, search_cons]
  norm_num [targetOf, upperBoundOf, costOfChangeOf, BYTES_PER_INPUT,
    BYTES_PER_OUTPUT, BYTES_OVERHEAD]

/-- Claim C7: for the empty unit list and any positive target the engine
returns none, and in general none is returned exactly when the search loop
(which can only end by acceptance or by emptying its stack) yields none. -/
theorem claim7_empty_no_solution (targetAmount feeRate : Int)
    (hT : 0 < targetAmount) (hr : 0 ≤ feeRate) :
    selectUtxoBnBOptimized [] targetAmount feeRate = none ∧
      ∀ utxos : List Int,
        (selectUtxoBnBOptimized utxos targetAmount feeRate = none ↔
          search (effectiveUtxosOf utxos feeRate) (targetOf targetAmount feeRate)
            (upperBoundOf targetAmount feeRate) [⟨0, 0, []⟩] = none) := by
  constructor
  · have htz : 0 < targetOf targetAmount feeRate := by
      unfold targetOf
      have hmul : 0 ≤ (BYTES_PER_OUTPUT + BYTES_OVERHEAD) * feeRate :=
        mul_nonneg (by norm_num [BYTES_PER_OUTPUT, BYTES_OVERHEAD]) hr
      linarith
    have heff : effectiveUtxosOf [] feeRate = [] := rfl
    rw [selectUtxoBnBOptimized, heff, search_cons]
    rw [if_neg (by intro hc; simp only [Node.currentEffectiveSum] at hc; omega)]
    rw [if_pos (Or.inl (by simp))]
    rw [search_nil]
  · intro utxos
    rw [selectUtxoBnBOptimized]
    cases hsr : search (effectiveUtxosOf utxos feeRate) (targetOf targetAmount feeRate)
        (upperBoundOf targetAmount feeRate) [⟨0, 0, []⟩] with
    | none => simp
    | some sel => simp

/-- Witness for C7 at a concrete positive target. -/
theorem claim7_witness : selectUtxoBnBOptimized [] 5 0 = none :=
  (claim7_empty_no_solution 5 0 (by norm_num) (by norm_num)).1

/-- Claim C8: the engine is a pure deterministic function; two runs on equal
inputs return equal outcomes. -/
theorem claim8_deterministic (utxos1 utxos2 : List Int) (t1 t2 r1 r2 : Int)
    (hu : utxos1 = utxos2) (ht : t1 = t2) (hr : r1 = r2) :
    selectUtxoBnBOptimized utxos1 t1 r1 = selectUtxoBnBOptimized utxos2 t2 r2 := by
  rw [hu, ht, hr]

/-- Witness for C8 at concrete equal inputs. -/
theorem claim8_witness :
    selectUtxoBnBOptimized [30000, 25000] 50000 10 =
      selectUtxoBnBOptimized [30000, 25000] 50000 10 :=
  claim8_deterministic [30000, 25000] [30000, 25000] 50000 50000 10 10 rfl rfl rfl

/-- Claim C9: for every accepted result the excess is at most the cost of
change (34+10)·feeRate. -/
theorem claim9_excess_le_cost_of_change (utxos : List Int) (targetAmount feeRate : Int)
    (res : SelectionResult) (hT : 0 < targetAmount) (hr : 0 ≤ feeRate)
    (h : selectUtxoBnBOptimized utxos targetAmount feeRate = some res) :
    res.excess ≤ costOfChangeOf feeRate := by
  obtain ⟨sel, hexc, hlo, hhi⟩ := select_excess_spec utxos targetAmount feeRate res h
  rw [hexc]
  unfold upperBoundOf at hhi
  linarith

/-- Witness for C9 at the sample accepted run. -/
theorem claim9_witness :
    (⟨[50192], 192, 50192, 0⟩ : SelectionResult).excess ≤ costOfChangeOf 1 :=
  claim9_excess_le_cost_of_change [50192] 50000 1 ⟨[50192], 192, 50192, 0⟩
    (by norm_num) (by norm_num) select_example

/-- Claim C10: the selected raw amounts of an accepted result form a
sub-multiset of the input list; they arise from candidates with pairwise
distinct original indices, each of which points back at its own amount in
the input sequence. -/
theorem claim10_submultiset (utxos : List Int) (targetAmount feeRate : Int)
    (res : SelectionResult)
    (h : selectUtxoBnBOptimized utxos targetAmount feeRate = some res) :
    res.selectedUtxos.Subperm utxos ∧
      ∃ sel : List EffUtxo, res.selectedUtxos = sel.map EffUtxo.amount ∧
        (sel.map EffUtxo.originalIndex).Nodup ∧
        ∀ x ∈ sel, utxos[x.originalIndex]? = some x.amount := by
  obtain ⟨sel, hsub, hsel, hfee, htot, hexc, hlo, hhi⟩ :=
    select_spec utxos targetAmount feeRate res h
  constructor
  · rw [hsel]
    exact selected_subperm hsub
  · refine ⟨sel, hsel, ?_, ?_⟩
    · exact (hsub.map EffUtxo.originalIndex).nodup (nodup_originalIndex utxos feeRate)
    · intro x hx
      exact (mem_effectiveUtxosOf (hsub.subset hx)).2.2

/-- Witness for C10 at the sample accepted run. -/
theorem claim10_witness :
    ((⟨[50192], 192, 50192, 0⟩ : SelectionResult).selectedUtxos).Subperm [50192] :=
  (claim10_submultiset [50192] 50000 1 ⟨[50192], 192, 50192, 0⟩ select_example).1

end UtxoBnB
